import Mathlib

/-!
Shallow embedding of the Qyvr hook dispatcher (src/Qyvr.mjs; the class-based
variant in the repository agrees with it on every part modelled here).

Conventions of the embedding:
* JS strings are Lean `String`s; the dotted-pattern string operations the
  source uses (`split('.')`, `join('.')`, `endsWith('*')`, `slice(0,-1)`,
  `shift`, `pop`, `indexOf`, `findIndex`, `splice`, `new Set`) are modelled
  by the structurally recursive `js...` helpers below, so that every
  definition evaluates inside the kernel.
* JS `undefined` is `Option.none`; a JS value that may be a string or
  `undefined` is an `Option String`.
* A hook callback is modelled by what the dispatch loop observes of it: it
  may read and mutate the per-fire execution context (assign
  `this.return`, call `this.stop()`) and its awaited result either is a
  value (`none` = `undefined`) or a rejection carrying the thrown error.
* The mutable `Qyvents` map is a `List (String × Qyvent _)` threaded through
  the operations; the `sharedContext` blob (`event.ctx`) is not modelled:
  no claim below depends on it, and `fire` re-initialises `return` and the
  stop flag of each fresh context regardless of its contents.
* JS `Array.prototype.sort` (stable since ES2019, used with the consistent
  comparator `phases.indexOf(a.phase) - phases.indexOf(b.phase)`) is
  modelled by the stable sorting algorithm `jsSort`; a stable sort's output
  is uniquely determined, so any stable algorithm is a faithful model.
-/

namespace QyvrSpec

/-- JS `s.split('.')` at the character level: always yields at least one
(possibly empty) segment, e.g. `"" ↦ [""]` and `"a..b" ↦ ["a","","b"]`. -/
def splitDotChars : List Char → List (List Char)
  | [] => [[]]
  | c :: cs =>
    if c = '.' then [] :: splitDotChars cs
    else
      match splitDotChars cs with
      | [] => [[c]]
      | seg :: segs => (c :: seg) :: segs

/-- JS `pattern.split('.')`. -/
def jsSplitDot (s : String) : List String :=
  (splitDotChars s.toList).map fun cs => String.mk cs

/-- JS `parts.join('.')`. -/
def jsJoinDot (l : List String) : String :=
  String.mk (List.intercalate ['.'] (l.map String.toList))

/-- JS `arr.shift()`: the removed first element (`undefined` on an empty
array) together with the remaining array. -/
def jsShift : List α → Option α × List α
  | [] => (none, [])
  | x :: xs => (some x, xs)

/-- JS `arr.pop()`: the removed last element (`undefined` on an empty array)
together with the remaining array. -/
def jsPop (l : List α) : Option α × List α :=
  (l.getLast?, l.dropLast)

/-- JS `phase.endsWith('*')` for the one-character default marker. -/
def jsEndsWithStar (s : String) : Bool :=
  s.toList.getLast? == some '*'

/-- JS `phase.slice(0, -1)`: drop the final character. -/
def jsDropLast (s : String) : String :=
  String.mk s.toList.dropLast

/-- JS `[...new Set(l)]`: deduplicate, keeping first occurrences in order
(the `seen` accumulator holds the elements already emitted). -/
def jsSetDedupAux [BEq α] : List α → List α → List α
  | [], _ => []
  | x :: xs, seen =>
    if seen.contains x then jsSetDedupAux xs seen
    else x :: jsSetDedupAux xs (x :: seen)

/-- JS `[...new Set(l)]`. -/
def jsSetDedup [BEq α] (l : List α) : List α :=
  jsSetDedupAux l []

/-- JS `arr.findIndex(p)`: index of the first match, `-1` when none. -/
def jsFindIndex (p : α → Bool) (l : List α) : Int :=
  match l.findIdx? p with
  | some i => (i : Int)
  | none => -1

/-- JS `arr.indexOf(x)`. -/
def jsIndexOf [BEq α] (l : List α) (x : α) : Int :=
  jsFindIndex (fun y => y == x) l

/-- JS `arr.splice(start)` with no delete count: removes every element from
`start` (clamped; a negative `start` counts from the end) through the end,
so the array that remains is the prefix strictly before `start`. -/
def jsSpliceFrom (l : List α) (start : Int) : List α :=
  l.take (if start < 0 then (max ((l.length : Int) + start) 0).toNat else start.toNat)

/-- Hook record pushed by `Qyvent.hook`:
`{ id, name, action, cb, phase }` (JS field values that may be `undefined`
are `Option`s). -/
structure Hook (K : Type) where
  id : Option String
  name : List String
  action : Option String
  cb : K
  phase : Option String
deriving DecidableEq

/-- A `Qyvent` namespace: its id, the stored phase list (default markers
stripped), the default phase `this.main` (possibly `undefined`), and the
ordered hook collection. -/
structure Qyvent (K : Type) where
  id : String
  phases : List String
  main : Option String
  hooks : List (Hook K)
deriving DecidableEq

/-- Body of the `phases.map(...)` in the `Qyvent` constructor: accumulates
the stored phase list (markers stripped) and the assignment
`this.main = phase.slice(0, -1)` performed for each marked phase (so the
last marked phase wins; `none` when no phase carries the marker). -/
def initPhases (phases : List String) : List String × Option String :=
  phases.foldl
    (fun acc ph =>
      if jsEndsWithStar ph then
        (acc.1 ++ [jsDropLast ph], some (jsDropLast ph))
      else
        (acc.1 ++ [ph], acc.2))
    ([], none)

/-- The `Qyvent` constructor (`new Qyvent(id, phases, ctx)`); the shared
context is not modelled (see the file header). -/
def Qyvent.create (K : Type) (id : String) (phases : List String) : Qyvent K :=
  { id := id
    phases := (initPhases phases).1
    main := (initPhases phases).2
    hooks := [] }

/-- JS comparator key `this.phases.indexOf(hook.phase)`: `-1` both for a
phase name absent from the list and for an `undefined` phase. -/
def phaseIdx (phases : List String) : Option String → Int
  | none => -1
  | some p => jsIndexOf phases p

/-- The sort order induced by the comparator
`(a, b) => phases.indexOf(a.phase) - phases.indexOf(b.phase)`. -/
def hookLe (phases : List String) (a b : Hook K) : Bool :=
  decide (phaseIdx phases a.phase ≤ phaseIdx phases b.phase)

/-- Insert `x` after every leading element `y` with `le y x`; folding this
over a list is a stable sorting algorithm, the model of the (stable)
JS `Array.prototype.sort` with a consistent comparator. -/
def stableInsert (le : α → α → Bool) (x : α) : List α → List α
  | [] => [x]
  | y :: ys => if le y x then y :: stableInsert le x ys else x :: y :: ys

/-- Stable sort modelling JS `arr.sort(comparator)`. -/
def jsSort (le : α → α → Bool) (l : List α) : List α :=
  l.foldl (fun acc x => stableInsert le x acc) []

/-- The hook record built inside `Qyvent.hook`: parse the pattern
(`name = pattern.split('.'); id = name.shift(); action = name.pop()`) and
attach the callback and phase; an omitted phase argument (JS `undefined`)
picks up the default `phase = this.main`. -/
def Qyvent.mkHookObj (ev : Qyvent K) (pattern : String) (cb : K) (phase : Option String) : Hook K :=
  { id := (jsShift (jsSplitDot pattern)).1
    name := (jsPop (jsShift (jsSplitDot pattern)).2).2
    action := (jsPop (jsShift (jsSplitDot pattern)).2).1
    cb := cb
    phase := match phase with
      | some p => some p
      | none => ev.main }

/-- `Qyvent.hook(pattern, cb, phase)`: push the hook record, then re-sort the
collection by phase index (stably). Besides the updated namespace it
returns the pushed record, which is what the returned JS unregister
closure captures; the closure body itself is `Qyvent.unhook` below. -/
def Qyvent.hook (ev : Qyvent K) (pattern : String) (cb : K) (phase : Option String) :
    Qyvent K × Hook K :=
  let hookObj := ev.mkHookObj pattern cb phase
  ({ ev with hooks := jsSort (hookLe ev.phases) (ev.hooks ++ [hookObj]) }, hookObj)

/-- The unregister closure returned by `Qyvent.hook`:
`() => this.hooks.splice(this.hooks.indexOf(hookObj))`. -/
def Qyvent.unhook [DecidableEq K] (ev : Qyvent K) (hookObj : Hook K) : Qyvent K :=
  { ev with hooks := jsSpliceFrom ev.hooks (jsIndexOf ev.hooks hookObj) }

/-- The per-hook test inside `fire`'s `event.hooks.filter(...)` (identical in
`Qyvent.filter` of the class-based variant): reject on different id,
different action, or different name length, else require each hook name
part to equal the fired part or be the literal `*`. The `zip` is exact
because it is only reached when the lengths agree. -/
def hookMatches (id : Option String) (nameParts : List String) (action : Option String)
    (h : Hook K) : Bool :=
  if id != h.id || action != h.action || h.name.length != nameParts.length then false
  else (h.name.zip nameParts).all fun pq => pq.1 == pq.2 || pq.1 == "*"

/-- The hook filtering step of `fire`, on an already-parsed pattern. -/
def fireFilter (ev : Qyvent K) (id : Option String) (nameParts : List String)
    (action : Option String) : List (Hook K) :=
  ev.hooks.filter (hookMatches id nameParts action)

/-- `Qyvent.filter(pattern)` from the class-based source file; `fire` in
src/Qyvr.mjs inlines the same computation. -/
def Qyvent.filter (ev : Qyvent K) (pattern : String) : List (Hook K) :=
  fireFilter ev (jsShift (jsSplitDot pattern)).1
    (jsPop (jsShift (jsSplitDot pattern)).2).2
    (jsPop (jsShift (jsSplitDot pattern)).2).1

/-- `Qyvent.has(pattern)` from src/Qyvr.mjs: prepend `this.id` to the split
segments, deduplicate via `new Set`, re-take id and action from the ends,
and test `findIndex(...) > -1` for a hook that agrees on id, on action, and
on the dot-joined name parts (exact string equality, no wildcard logic). -/
def Qyvent.has (ev : Qyvent K) (pattern : String) : Bool :=
  decide (jsFindIndex
    (fun hook =>
      (jsShift (jsSetDedup (ev.id :: jsSplitDot pattern))).1 == hook.id
      && (jsPop (jsShift (jsSetDedup (ev.id :: jsSplitDot pattern))).2).1 == hook.action
      && jsJoinDot (jsPop (jsShift (jsSetDedup (ev.id :: jsSplitDot pattern))).2).2
          == jsJoinDot hook.name)
    ev.hooks > -1)

/-- The per-fire execution context as the dispatch loop sees it:
`context.return` (`ret`, `none` = `undefined`) and the `stopped` flag. -/
structure FireCtx (V : Type) where
  ret : Option V
  stopped : Bool
deriving DecidableEq

/-- A hook callback as observed by the dispatch loop: it receives the
current context, may mutate it (assign `this.return`, call `this.stop()`),
and its awaited invocation either yields a result (`none` = `undefined`)
or rejects with a thrown error. -/
def Cb (V E : Type) := FireCtx V → Except E (FireCtx V × Option V)

/-- The distinct failure modes of the top-level operations: the `TypeError`
raised when the registry lookup yields `undefined`, and the propagated
rejection of a hook callback. -/
inductive FireErr (E : Type) where
  | namespaceNotFound : FireErr E
  | hookRejected : E → FireErr E
deriving DecidableEq

/-- The `for (const hook of hooks)` loop of `fire`: await the callback
(a rejection aborts the whole call), overwrite `context.return` when the
awaited result is not `undefined`, then break if `context.stopped`;
afterwards the loop's value is `context.return`. -/
def fireLoop (cbs : List (Cb V E)) (ctx : FireCtx V) : Except E (Option V) :=
  match cbs with
  | [] => Except.ok ctx.ret
  | cb :: rest =>
    match cb ctx with
    | Except.error e => Except.error e
    | Except.ok (ctx1, result) =>
      let ctx2 : FireCtx V :=
        match result with
        | some v => { ctx1 with ret := some v }
        | none => ctx1
      if ctx2.stopped then Except.ok ctx2.ret else fireLoop rest ctx2

/-- JS `Qyvents.get(id)` (a `Map` keyed by strings; looking up `undefined`
finds nothing). -/
def mapGet (m : List (String × α)) : Option String → Option α
  | none => none
  | some k => (m.find? (fun e => e.1 == k)).map (fun e => e.2)

/-- Top-level `fire(Qyvents, pattern, ...args)`: parse the pattern, look the
namespace up (an absent namespace makes the returned promise reject —
modelled as `FireErr.namespaceNotFound`), filter its hooks by the pattern,
and run the dispatch loop on a fresh context. -/
def fire (events : List (String × Qyvent (Cb V E))) (pattern : String) :
    Except (FireErr E) (Option V) :=
  match mapGet events (jsShift (jsSplitDot pattern)).1 with
  | none => Except.error FireErr.namespaceNotFound
  | some ev =>
    Except.mapError FireErr.hookRejected
      (fireLoop
        ((fireFilter ev (jsShift (jsSplitDot pattern)).1
            (jsPop (jsShift (jsSplitDot pattern)).2).2
            (jsPop (jsShift (jsSplitDot pattern)).2).1).map (fun h => h.cb))
        { ret := none, stopped := false })

/-- Top-level `addHook(Qyvents, pattern, cb, phase)`: look the namespace up
by the pattern's first segment (`pattern.split('.', 1)[0]`) and register
the hook there; an absent namespace makes the call throw (modelled as
`FireErr.namespaceNotFound`). -/
def addHook (E : Type) (events : List (String × Qyvent K)) (pattern : String) (cb : K)
    (phase : Option String) : Except (FireErr E) (Qyvent K × Hook K) :=
  match mapGet events (jsSplitDot pattern).head? with
  | none => Except.error FireErr.namespaceNotFound
  | some ev => Except.ok (ev.hook pattern cb phase)

/-- A callback that leaves the context's return slot alone, optionally calls
`stop()`, and resolves with `s.1` (`none` = returning `undefined`). -/
def retStopCb (s : Option V × Bool) : Cb V E :=
  fun ctx => Except.ok (if s.2 then { ctx with stopped := true } else ctx, s.1)

/-- A callback whose invocation throws / whose promise rejects with `e`. -/
def errCb (e : E) : Cb V E :=
  fun _ => Except.error e

/-- Fold a list of registrations `(pattern, cb, phase)` through
`Qyvent.hook`. -/
def registerAll (ev : Qyvent K) : List (String × K × Option String) → Qyvent K
  | [] => ev
  | r :: rest => registerAll (ev.hook r.1 r.2.1 r.2.2).1 rest

example : jsSplitDot "ns.a.call" = ["ns", "a", "call"] := by decide

example : jsSetDedup (["ns"] ++ jsSplitDot "ns.a.a.call") = ["ns", "a", "call"] := by decide

example :
    ((Qyvent.create Nat "ns" ["pre", "main*", "post"]).hook "ns.a.call" 7 none).1.hooks
      = [{ id := some "ns", name := ["a"], action := some "call", cb := 7,
           phase := some "main" }] := by decide

/-! Generic facts about the wildcard match predicate. -/

lemma zip_all_star_iff :
    ∀ (as bs : List String), as.length = bs.length →
      ((((as.zip bs).all fun pq => pq.1 == pq.2 || pq.1 == "*")) = true ↔
        ∀ i (hi : i < as.length) (hj : i < bs.length),
          as.get ⟨i, hi⟩ = "*" ∨ as.get ⟨i, hi⟩ = bs.get ⟨i, hj⟩) := by
  intro as
  induction as with
  | nil =>
    intro bs h
    cases bs with
    | nil => simp
    | cons b bs => simp at h
  | cons a as ih =>
    intro bs h
    cases bs with
    | nil => simp at h
    | cons b bs =>
      have hlen : as.length = bs.length := by simpa using h
      simp only [List.zip_cons_cons, List.all_cons, Bool.and_eq_true, Bool.or_eq_true,
        beq_iff_eq]
      rw [ih bs hlen]
      constructor
      · rintro ⟨h0, hrest⟩ i hi hj
        cases i with
        | zero => simpa using h0.symm
        | succ i =>
          exact hrest i (by simpa using hi) (by simpa using hj)
      · intro hall
        refine ⟨?_, ?_⟩
        · have := hall 0 (by simp) (by simp)
          simpa using this.symm
        · intro i hi hj
          exact hall (i + 1) (by simpa using hi) (by simpa using hj)

lemma get_of_eq_singleton {l : List String} (hl : l = ["*"]) :
    ∀ i (hi : i < l.length), l.get ⟨i, hi⟩ = "*" := by
  subst hl
  intro i hi
  match i, hi with
  | 0, _ => rfl
  | i + 1, hi => exact absurd hi (by simp)

lemma hookMatches_eq_true_iff (id : Option String) (nameParts : List String)
    (action : Option String) (h : Hook K) :
    hookMatches id nameParts action h = true ↔
      (h.id = id ∧ h.action = action ∧ h.name.length = nameParts.length ∧
        ∀ i (hi : i < h.name.length) (hj : i < nameParts.length),
          h.name.get ⟨i, hi⟩ = "*" ∨ h.name.get ⟨i, hi⟩ = nameParts.get ⟨i, hj⟩) := by
  cases hc : (id != h.id || action != h.action || h.name.length != nameParts.length) with
  | true =>
    simp only [hookMatches, hc, if_true]
    constructor
    · intro hfalse
      exact absurd hfalse (by simp)
    · rintro ⟨e1, e2, e3, _⟩
      simp [e1, e2, e3] at hc
  | false =>
    have hparts : (id = h.id ∧ action = h.action) ∧ h.name.length = nameParts.length := by
      simpa using hc
    obtain ⟨⟨e1, e2⟩, e3⟩ := hparts
    simp only [hookMatches, hc, if_false, Bool.false_eq_true]
    rw [zip_all_star_iff h.name nameParts e3]
    simp [e1.symm, e2.symm, e3]

/-- C1: a fired pattern `(id, nameParts, action)` selects a stored hook iff
the hook agrees on namespace id, action and name length and every hook name
part is the wildcard `*` or equals the fired part at the same position; a
hook whose name parts are exactly `["*"]` is selected iff the ids and
actions agree and the fired pattern has exactly one name part. -/
theorem fire_selects_hook_iff (K : Type) (ev : Qyvent K) (id : Option String)
    (nameParts : List String) (action : Option String) (h : Hook K)
    (hmem : h ∈ ev.hooks) :
    (h ∈ fireFilter ev id nameParts action ↔
      (h.id = id ∧ h.action = action ∧ h.name.length = nameParts.length ∧
        ∀ i (hi : i < h.name.length) (hj : i < nameParts.length),
          h.name.get ⟨i, hi⟩ = "*" ∨ h.name.get ⟨i, hi⟩ = nameParts.get ⟨i, hj⟩))
    ∧ (h.name = ["*"] →
        (h ∈ fireFilter ev id nameParts action ↔
          (h.id = id ∧ h.action = action ∧ nameParts.length = 1))) := by
  have base : h ∈ fireFilter ev id nameParts action ↔
      hookMatches id nameParts action h = true := by
    unfold fireFilter
    rw [List.mem_filter]
    simp [hmem]
  refine ⟨base.trans (hookMatches_eq_true_iff id nameParts action h), ?_⟩
  intro hstar
  rw [base, hookMatches_eq_true_iff]
  constructor
  · rintro ⟨e1, e2, e3, _⟩
    refine ⟨e1, e2, ?_⟩
    rw [hstar] at e3
    simpa using e3.symm
  · rintro ⟨e1, e2, e3⟩
    refine ⟨e1, e2, by rw [hstar]; simpa using e3.symm, ?_⟩
    intro i hi hj
    exact Or.inl (get_of_eq_singleton hstar i hi)

/-- Concrete wildcard hook and namespace used to instantiate C1. -/
def evC1 : Qyvent Nat := ((Qyvent.create Nat "ns" ["main*"]).hook "ns.*.call" 5 none).1

/-- The hook record registered in `evC1`. -/
def hC1 : Hook Nat := ((Qyvent.create Nat "ns" ["main*"]).hook "ns.*.call" 5 none).2

theorem fire_selects_hook_iff_witness :
    hC1 ∈ evC1.hooks
    ∧ ((hC1 ∈ fireFilter evC1 (some "ns") ["x"] (some "call") ↔
          (hC1.id = some "ns" ∧ hC1.action = some "call" ∧
            hC1.name.length = (["x"] : List String).length ∧
            ∀ i (hi : i < hC1.name.length) (hj : i < (["x"] : List String).length),
              hC1.name.get ⟨i, hi⟩ = "*"
                ∨ hC1.name.get ⟨i, hi⟩ = (["x"] : List String).get ⟨i, hj⟩))
        ∧ (hC1.name = ["*"] →
            (hC1 ∈ fireFilter evC1 (some "ns") ["x"] (some "call") ↔
              (hC1.id = some "ns" ∧ hC1.action = some "call" ∧
                (["x"] : List String).length = 1)))) :=
  ⟨by decide, fire_selects_hook_iff Nat evC1 (some "ns") ["x"] (some "call") hC1 (by decide)⟩

/-- C4 (recording the code defect): after registering two hooks in one
namespace, invoking the unregister handle of the FIRST hook leaves an empty
collection — `splice(indexOf(hookObj))` with no delete count truncates the
collection from the hook's index onward, so the later hook is removed too,
where the claim requires exactly one removal. -/
theorem unregister_removes_later_hooks :
    ((((Qyvent.create Nat "ns" ["main*"]).hook "ns.a.call" 1 none).1.hook
        "ns.b.call" 2 none).1.hooks.length = 2)
    ∧ (((((Qyvent.create Nat "ns" ["main*"]).hook "ns.a.call" 1 none).1.hook
          "ns.b.call" 2 none).1.unhook
            ((Qyvent.create Nat "ns" ["main*"]).hook "ns.a.call" 1 none).2).hooks = []) := by
  decide

lemma jsShift_fst (l : List α) : (jsShift l).1 = l.head? := by
  cases l <;> rfl

/-- C7: when the pattern's namespace id is not in the registry, `fire`
fails with the namespace-not-found error (its promise rejects), and
`addHook` on the same registry fails the same way. -/
theorem missing_namespace_fails (V E : Type) (events : List (String × Qyvent (Cb V E)))
    (pattern : String) (cb : Cb V E) (ph : Option String)
    (h : mapGet events (jsSplitDot pattern).head? = none) :
    fire events pattern = Except.error FireErr.namespaceNotFound
    ∧ addHook E events pattern cb ph = Except.error FireErr.namespaceNotFound := by
  constructor
  · unfold fire
    rw [jsShift_fst, h]
  · unfold addHook
    rw [h]

theorem missing_namespace_fails_witness :
    mapGet ([] : List (String × Qyvent (Cb Nat Nat))) (jsSplitDot "unknown_ns.a.b").head? = none
    ∧ fire ([] : List (String × Qyvent (Cb Nat Nat))) "unknown_ns.a.b"
        = Except.error FireErr.namespaceNotFound :=
  ⟨rfl,
    (missing_namespace_fails Nat Nat [] "unknown_ns.a.b" (retStopCb (none, false)) none rfl).1⟩

/-! Sortedness and stability of `jsSort`, the model of the stable JS
`Array.prototype.sort`. -/

lemma mem_stableInsert (le : α → α → Bool) (x y : α) (l : List α) :
    y ∈ stableInsert le x l ↔ y = x ∨ y ∈ l := by
  induction l with
  | nil => simp [stableInsert]
  | cons z zs ih =>
    simp only [stableInsert]
    split
    · rw [List.mem_cons, ih, List.mem_cons]
      tauto
    · rw [List.mem_cons, List.mem_cons]

lemma pairwise_stableInsert (le : α → α → Bool)
    (htr : ∀ a b c, le a b = true → le b c = true → le a c = true)
    (htot : ∀ a b, le a b = true ∨ le b a = true) (x : α) :
    ∀ l : List α, l.Pairwise (fun a b => le a b = true) →
      (stableInsert le x l).Pairwise (fun a b => le a b = true) := by
  intro l
  induction l with
  | nil => simp [stableInsert]
  | cons y ys ih =>
    intro hp
    obtain ⟨hy, hys⟩ := List.pairwise_cons.mp hp
    simp only [stableInsert]
    split
    case isTrue hle =>
      rw [List.pairwise_cons]
      refine ⟨?_, ih hys⟩
      intro z hz
      rcases (mem_stableInsert le x z ys).mp hz with rfl | hzys
      · exact hle
      · exact hy z hzys
    case isFalse hnle =>
      have hxy : le x y = true := by
        rcases htot x y with hh | hh
        · exact hh
        · exact absurd hh hnle
      rw [List.pairwise_cons]
      refine ⟨?_, List.pairwise_cons.mpr ⟨hy, hys⟩⟩
      intro z hz
      rcases List.mem_cons.mp hz with rfl | hzys
      · exact hxy
      · exact htr x y z hxy (hy z hzys)

lemma pairwise_foldl_stableInsert (le : α → α → Bool)
    (htr : ∀ a b c, le a b = true → le b c = true → le a c = true)
    (htot : ∀ a b, le a b = true ∨ le b a = true) :
    ∀ (l acc : List α), acc.Pairwise (fun a b => le a b = true) →
      (l.foldl (fun acc x => stableInsert le x acc) acc).Pairwise
        (fun a b => le a b = true) := by
  intro l
  induction l with
  | nil => intro acc hacc; simpa using hacc
  | cons x xs ih =>
    intro acc hacc
    simp only [List.foldl_cons]
    exact ih _ (pairwise_stableInsert le htr htot x acc hacc)

lemma pairwise_jsSort (le : α → α → Bool)
    (htr : ∀ a b c, le a b = true → le b c = true → le a c = true)
    (htot : ∀ a b, le a b = true ∨ le b a = true) (l : List α) :
    (jsSort le l).Pairwise (fun a b => le a b = true) :=
  pairwise_foldl_stableInsert le htr htot l [] (by simp)

lemma filter_stableInsert (le : α → α → Bool) (p : α → Bool)
    (hple : ∀ a b, p a = true → p b = true → le a b = true)
    (htr : ∀ a b c, le a b = true → le b c = true → le a c = true) (x : α) :
    ∀ l : List α, l.Pairwise (fun a b => le a b = true) →
      (stableInsert le x l).filter p = l.filter p ++ (if p x then [x] else []) := by
  intro l
  induction l with
  | nil =>
    intro _
    simp only [stableInsert, List.filter_nil, List.nil_append, List.filter]
    cases p x <;> simp
  | cons y ys ih =>
    intro hp
    obtain ⟨hy, hys⟩ := List.pairwise_cons.mp hp
    simp only [stableInsert]
    split
    case isTrue hle =>
      rw [List.filter_cons, List.filter_cons, ih hys]
      cases hpy : p y <;> simp
    case isFalse hnle =>
      cases hpx : p x with
      | false =>
        simp [List.filter_cons, hpx]
      | true =>
        have hempty : (y :: ys).filter p = [] := by
          rw [List.filter_eq_nil_iff]
          intro z hz hpz
          rcases List.mem_cons.mp hz with rfl | hzys
          · exact hnle (hple z x hpz hpx)
          · exact hnle (htr y z x (hy z hzys) (hple z x hpz hpx))
        simp [List.filter_cons, hempty, hpx]

lemma filter_foldl_stableInsert (le : α → α → Bool) (p : α → Bool)
    (hple : ∀ a b, p a = true → p b = true → le a b = true)
    (htr : ∀ a b c, le a b = true → le b c = true → le a c = true)
    (htot : ∀ a b, le a b = true ∨ le b a = true) :
    ∀ (l acc : List α), acc.Pairwise (fun a b => le a b = true) →
      (l.foldl (fun acc x => stableInsert le x acc) acc).filter p
        = acc.filter p ++ l.filter p := by
  intro l
  induction l with
  | nil => intro acc _; simp
  | cons x xs ih =>
    intro acc hacc
    simp only [List.foldl_cons]
    rw [ih _ (pairwise_stableInsert le htr htot x acc hacc),
      filter_stableInsert le p hple htr x acc hacc, List.filter_cons]
    cases hpx : p x with
    | true => simp
    | false => simp

lemma filter_jsSort (le : α → α → Bool) (p : α → Bool)
    (hple : ∀ a b, p a = true → p b = true → le a b = true)
    (htr : ∀ a b c, le a b = true → le b c = true → le a c = true)
    (htot : ∀ a b, le a b = true ∨ le b a = true) (l : List α) :
    (jsSort le l).filter p = l.filter p := by
  unfold jsSort
  rw [filter_foldl_stableInsert le p hple htr htot l [] (by simp)]
  simp

lemma hookLe_trans (phases : List String) (a b c : Hook K)
    (h1 : hookLe phases a b = true) (h2 : hookLe phases b c = true) :
    hookLe phases a c = true := by
  simp only [hookLe, decide_eq_true_eq] at h1 h2 ⊢
  omega

lemma hookLe_total (phases : List String) (a b : Hook K) :
    hookLe phases a b = true ∨ hookLe phases b a = true := by
  simp only [hookLe, decide_eq_true_eq]
  omega

lemma hookLe_of_keyEq (phases : List String) (c : Int) (a b : Hook K)
    (ha : (phaseIdx phases a.phase == c) = true)
    (hb : (phaseIdx phases b.phase == c) = true) : hookLe phases a b = true := by
  simp only [beq_iff_eq] at ha hb
  simp only [hookLe, ha, hb, decide_eq_true_eq]
  omega

lemma mkHookObj_congr (ev ev2 : Qyvent K) (hmain : ev.main = ev2.main)
    (pattern : String) (cb : K) (phase : Option String) :
    ev.mkHookObj pattern cb phase = ev2.mkHookObj pattern cb phase := by
  cases phase <;> simp [Qyvent.mkHookObj, hmain]

lemma registerAll_spec (regs : List (String × K × Option String)) :
    ∀ ev : Qyvent K,
      (registerAll ev regs).phases = ev.phases
      ∧ (registerAll ev regs).main = ev.main
      ∧ (ev.hooks.Pairwise (fun a b => hookLe ev.phases a b = true) →
          (registerAll ev regs).hooks.Pairwise (fun a b => hookLe ev.phases a b = true))
      ∧ ∀ c : Int,
          (registerAll ev regs).hooks.filter (fun h => phaseIdx ev.phases h.phase == c)
            = ev.hooks.filter (fun h => phaseIdx ev.phases h.phase == c)
              ++ (regs.map fun r => ev.mkHookObj r.1 r.2.1 r.2.2).filter
                  (fun h => phaseIdx ev.phases h.phase == c) := by
  induction regs with
  | nil =>
    intro ev
    simp [registerAll]
  | cons r rest ih =>
    intro ev
    have hstep : registerAll ev (r :: rest) = registerAll (ev.hook r.1 r.2.1 r.2.2).1 rest :=
      rfl
    have hphases : (ev.hook r.1 r.2.1 r.2.2).1.phases = ev.phases := rfl
    have hmain : (ev.hook r.1 r.2.1 r.2.2).1.main = ev.main := rfl
    have hhooks : (ev.hook r.1 r.2.1 r.2.2).1.hooks
        = jsSort (hookLe ev.phases) (ev.hooks ++ [ev.mkHookObj r.1 r.2.1 r.2.2]) := rfl
    obtain ⟨ihp, ihm, ihs, ihf⟩ := ih (ev.hook r.1 r.2.1 r.2.2).1
    rw [hstep]
    refine ⟨ihp.trans hphases, ihm.trans hmain, ?_, ?_⟩
    · intro _
      rw [hphases] at ihs
      refine ihs ?_
      rw [hhooks]
      exact pairwise_jsSort (hookLe ev.phases) (hookLe_trans ev.phases)
        (hookLe_total ev.phases) _
    · intro c
      have ihf' := ihf c
      rw [hphases] at ihf'
      rw [ihf', hhooks,
        filter_jsSort (hookLe ev.phases) (fun h => phaseIdx ev.phases h.phase == c)
          (hookLe_of_keyEq ev.phases c) (hookLe_trans ev.phases) (hookLe_total ev.phases),
        List.filter_append]
      have hmaps : (rest.map fun s => (ev.hook r.1 r.2.1 r.2.2).1.mkHookObj s.1 s.2.1 s.2.2)
          = rest.map fun s => ev.mkHookObj s.1 s.2.1 s.2.2 := by
        refine List.map_congr_left ?_
        intro s _
        exact mkHookObj_congr _ _ hmain.symm s.1 s.2.1 s.2.2
      rw [hmaps]
      simp only [List.map_cons, List.filter_append, List.filter_cons, List.filter_nil,
        List.append_assoc]
      cases hpr : (phaseIdx ev.phases (ev.mkHookObj r.1 r.2.1 r.2.2).phase == c) <;>
        simp [hpr]

lemma phaseIdx_of_not_mem (phases : List String) (ph : String) (h : ph ∉ phases) :
    phaseIdx phases (some ph) = -1 := by
  simp only [phaseIdx, jsIndexOf, jsFindIndex]
  have : phases.findIdx? (fun y => y == ph) = none := by
    rw [List.findIdx?_eq_none_iff]
    intro x hx
    simp only [beq_eq_false_iff_ne, ne_eq]
    rintro rfl
    exact h hx
  rw [this]

/-- C2: starting from an empty hook collection, after any sequence of
`Qyvent.hook` registrations the collection is sorted by ascending phase
index (`-1` for a phase name absent from the declared list, which therefore
sorts before all recognized phases), and for every phase index the hooks
carrying it appear exactly in registration order (the sort is stable). -/
theorem hooks_sorted_by_phase (K : Type) (ev : Qyvent K)
    (regs : List (String × K × Option String)) (h0 : ev.hooks = []) :
    ((registerAll ev regs).hooks.Pairwise (fun a b => hookLe ev.phases a b = true))
    ∧ (∀ c : Int,
        (registerAll ev regs).hooks.filter (fun h => phaseIdx ev.phases h.phase == c)
          = (regs.map fun r => ev.mkHookObj r.1 r.2.1 r.2.2).filter
              (fun h => phaseIdx ev.phases h.phase == c))
    ∧ (∀ ph : String, ph ∉ ev.phases → phaseIdx ev.phases (some ph) = -1) := by
  obtain ⟨_, _, hs, hf⟩ := registerAll_spec regs ev
  refine ⟨hs (by rw [h0]; simp), ?_, phaseIdx_of_not_mem ev.phases⟩
  intro c
  have := hf c
  rw [h0] at this
  simpa using this

/-- Concrete namespace used to instantiate C2. -/
def evC2 : Qyvent Nat := Qyvent.create Nat "sys" ["pre", "main*", "post"]

/-- Concrete registration sequence used to instantiate C2. -/
def regsC2 : List (String × Nat × Option String) :=
  [("sys.a.call", 1, some "post"), ("sys.b.call", 2, some "pre"), ("sys.c.call", 3, none)]

theorem hooks_sorted_by_phase_witness :
    evC2.hooks = []
    ∧ (registerAll evC2 regsC2).hooks.Pairwise
        (fun a b => hookLe evC2.phases a b = true) :=
  ⟨by decide, (hooks_sorted_by_phase Nat evC2 regsC2 (by decide)).1⟩

/-! The dispatch loop: return/stop semantics and rejection behaviour. -/

lemma fireLoop_retStop (V E : Type) (specs : List (Option V × Bool)) :
    ∀ ctx : FireCtx V, ctx.stopped = false →
      fireLoop (specs.map retStopCb : List (Cb V E)) ctx
        = Except.ok ((specs.take (specs.findIdx (fun s => s.2) + 1)).foldl
            (fun acc s => match s.1 with | some v => some v | none => acc) ctx.ret) := by
  induction specs with
  | nil =>
    intro ctx hctx
    simp [fireLoop]
  | cons s ss ih =>
    intro ctx hctx
    obtain ⟨r, b⟩ := s
    cases b with
    | true =>
      cases r <;>
        simp [fireLoop, retStopCb, List.findIdx_cons]
    | false =>
      cases r with
      | none =>
        simp only [List.map_cons, fireLoop, retStopCb, Bool.false_eq_true, if_false, hctx]
        rw [ih ctx hctx]
        simp [List.findIdx_cons]
      | some v =>
        simp only [List.map_cons, fireLoop, retStopCb, Bool.false_eq_true, if_false, hctx]
        rw [ih { ret := some v, stopped := false } rfl]
        simp [List.findIdx_cons]

lemma fireLoop_stop_tail (V E : Type) (k : Nat) :
    ∀ ctx : FireCtx V, ctx.stopped = false →
      fireLoop ((List.replicate k ((none : Option V), false)
            ++ [((none : Option V), true)]).map retStopCb : List (Cb V E)) ctx
        = Except.ok ctx.ret := by
  induction k with
  | zero =>
    intro ctx hctx
    simp [fireLoop, retStopCb]
  | succ n ih =>
    intro ctx hctx
    simp only [List.replicate_succ, List.cons_append, List.map_cons, fireLoop, retStopCb,
      Bool.false_eq_true, if_false, hctx]
    exact ih ctx hctx

/-- C3: over the dispatch loop with callbacks that return a result (possibly
`undefined`) and possibly call `stop()`: (a) the loop runs the callbacks in
order up to and including the first one that stops, each non-`undefined`
result overwrites the return slot (a stopping hook's own result included),
and the loop resolves with the final slot value; (b) in particular, when an
earlier hook returns `v` and every later hook up to and including the
stopping one returns `undefined`, the loop resolves with `v`. -/
theorem fire_loop_return_and_stop (V E : Type) :
    (∀ specs : List (Option V × Bool),
        fireLoop (specs.map retStopCb : List (Cb V E)) { ret := none, stopped := false }
          = Except.ok ((specs.take (specs.findIdx (fun s => s.2) + 1)).foldl
              (fun acc s => match s.1 with | some v => some v | none => acc) none))
    ∧ (∀ (v : V) (k : Nat),
        fireLoop ((((some v, false) :: (List.replicate k ((none : Option V), false)
              ++ [((none : Option V), true)])).map retStopCb) : List (Cb V E))
            { ret := none, stopped := false }
          = Except.ok (some v)) := by
  constructor
  · intro specs
    exact fireLoop_retStop V E specs { ret := none, stopped := false } rfl
  · intro v k
    simp only [List.map_cons, fireLoop, retStopCb, Bool.false_eq_true, if_false]
    exact fireLoop_stop_tail V E k { ret := some v, stopped := false } rfl

lemma fireLoop_err_aux (V E : Type) (e : E) (post : List (Cb V E)) :
    ∀ (specs : List (Option V × Bool)) (ctx : FireCtx V), ctx.stopped = false →
      specs.all (fun s => !s.2) = true →
      fireLoop ((specs.map retStopCb) ++ errCb e :: post) ctx = Except.error e := by
  intro specs
  induction specs with
  | nil =>
    intro ctx hctx _
    simp [fireLoop, errCb]
  | cons s ss ih =>
    intro ctx hctx hall
    obtain ⟨r, b⟩ := s
    simp only [List.all_cons, Bool.and_eq_true, Bool.not_eq_eq_eq_not, Bool.not_true] at hall
    obtain ⟨hb, hall⟩ := hall
    subst hb
    cases r with
    | none =>
      simp only [List.map_cons, List.cons_append, fireLoop, retStopCb, Bool.false_eq_true,
        if_false, hctx]
      exact ih ctx hctx hall
    | some v =>
      simp only [List.map_cons, List.cons_append, fireLoop, retStopCb, Bool.false_eq_true,
        if_false, hctx]
      exact ih { ret := some v, stopped := false } rfl hall

/-- C6: if, after any earlier hooks that resolve normally and do not stop,
a hook's invocation rejects with cause `e`, the whole dispatch loop rejects
with that cause: the hooks after it (arbitrary `post`) are never invoked
and any return value already recorded by the earlier hooks is discarded. -/
theorem fire_loop_rejects (V E : Type) (specs : List (Option V × Bool)) (e : E)
    (post : List (Cb V E)) (hns : specs.all (fun s => !s.2) = true) :
    fireLoop ((specs.map retStopCb) ++ errCb e :: post) { ret := none, stopped := false }
      = Except.error e :=
  fireLoop_err_aux V E e post specs { ret := none, stopped := false } rfl hns

theorem fire_loop_rejects_witness :
    ([((some 42 : Option Nat), false)].all (fun s => !s.2) = true)
    ∧ fireLoop (([((some 42 : Option Nat), false)].map retStopCb)
          ++ errCb "boom" :: [retStopCb ((none : Option Nat), true)])
        { ret := none, stopped := false }
      = Except.error "boom" :=
  ⟨by decide,
    fire_loop_rejects Nat String [((some 42 : Option Nat), false)] "boom"
      [retStopCb ((none : Option Nat), true)] (by decide)⟩

/-! Namespace construction: the stored phase list and the default phase. -/

lemma getLast?_cons_or (a : α) (l : List α) :
    (a :: l).getLast? = Option.or l.getLast? (some a) := by
  induction l generalizing a with
  | nil => simp
  | cons b m ih =>
    rw [List.getLast?_cons_cons, ih b]
    cases m.getLast? <;> simp [Option.or]

lemma initPhases_foldl (l : List String) :
    ∀ acc : List String × Option String,
      l.foldl (fun acc ph =>
          if jsEndsWithStar ph then (acc.1 ++ [jsDropLast ph], some (jsDropLast ph))
          else (acc.1 ++ [ph], acc.2)) acc
        = (acc.1 ++ l.map (fun ph => if jsEndsWithStar ph then jsDropLast ph else ph),
            Option.or (((l.filter jsEndsWithStar).map jsDropLast).getLast?) acc.2) := by
  induction l with
  | nil =>
    intro acc
    simp [Option.or]
  | cons ph l ih =>
    intro acc
    rw [List.foldl_cons]
    by_cases hm : jsEndsWithStar ph = true
    · rw [if_pos hm, ih]
      simp only [List.map_cons, List.filter_cons, hm, if_true, getLast?_cons_or,
        Prod.mk.injEq, List.append_assoc, List.cons_append, List.nil_append]
      refine ⟨trivial, ?_⟩
      cases ((l.filter jsEndsWithStar).map jsDropLast).getLast? <;> simp [Option.or]
    · rw [if_neg hm, ih]
      simp [hm]

lemma initPhases_spec (phases : List String) :
    initPhases phases
      = (phases.map (fun ph => if jsEndsWithStar ph then jsDropLast ph else ph),
          ((phases.filter jsEndsWithStar).map jsDropLast).getLast?) := by
  unfold initPhases
  rw [initPhases_foldl phases ([], none)]
  cases ((phases.filter jsEndsWithStar).map jsDropLast).getLast? <;> simp [Option.or]

/-- C8 amended theorem: the constructor strips the `*` marker from every
marked phase before storing the phase list, and the default phase is the
last marked phase with its marker stripped; when no declared phase carries
the marker the default phase is `undefined` (`none`) — the first phase does
NOT become the default. -/
theorem create_phases_and_default (K : Type) (id : String) (phases : List String) :
    (Qyvent.create K id phases).phases
        = phases.map (fun ph => if jsEndsWithStar ph then jsDropLast ph else ph)
    ∧ (Qyvent.create K id phases).main
        = ((phases.filter jsEndsWithStar).map jsDropLast).getLast? := by
  unfold Qyvent.create
  rw [initPhases_spec]
  exact ⟨rfl, rfl⟩

/-- C8 counterexample: with declared phases `["a", "b"]` (no `*` marker) the
constructor leaves the default phase undefined; it is not the first phase
`"a"` as the claim's corrected contract requires. -/
theorem create_no_marker_no_default :
    (Qyvent.create Unit "ns" ["a", "b"]).main = none
    ∧ ¬ (Qyvent.create Unit "ns" ["a", "b"]).main = some "a" := by
  decide

/-! Patterns with fewer than two segments. -/

/-- C9 counterexample: the one-segment pattern `"ns"` is not rejected:
`addHook` on a registry containing namespace `"ns"` proceeds and succeeds
instead of failing with a pattern-malformed error. -/
theorem single_segment_pattern_accepted :
    (jsSplitDot "ns").length < 2
    ∧ (addHook Unit [("ns", Qyvent.create Nat "ns" ["main*"])] "ns" 42 none).isOk = true := by
  decide

/-- C9 amended theorem: a pattern with a single segment is accepted by the
operations: `addHook` registers a hook whose action is `undefined` and whose
name parts are empty, and `fire` proceeds to dispatch with the lone segment
as namespace id, empty name parts and `undefined` action. -/
theorem single_segment_parses (V E : Type) (events : List (String × Qyvent (Cb V E)))
    (pattern seg : String) (cb : Cb V E) (ph : Option String) (ev : Qyvent (Cb V E))
    (h1 : jsSplitDot pattern = [seg]) (h2 : mapGet events (some seg) = some ev) :
    addHook E events pattern cb ph = Except.ok (ev.hook pattern cb ph)
    ∧ (ev.mkHookObj pattern cb ph).action = none
    ∧ (ev.mkHookObj pattern cb ph).name = []
    ∧ fire events pattern
        = Except.mapError FireErr.hookRejected
            (fireLoop ((fireFilter ev (some seg) [] none).map (fun h => h.cb))
              { ret := none, stopped := false }) := by
  refine ⟨?_, ?_, ?_, ?_⟩
  · unfold addHook
    rw [h1]
    simp [h2]
  · simp [Qyvent.mkHookObj, h1, jsShift, jsPop]
  · simp [Qyvent.mkHookObj, h1, jsShift, jsPop]
  · unfold fire
    rw [h1]
    simp [jsShift, jsPop, h2]

theorem single_segment_parses_witness :
    jsSplitDot "ns" = ["ns"]
    ∧ mapGet [("ns", Qyvent.create (Cb Nat Nat) "ns" ["main*"])] (some "ns")
        = some (Qyvent.create (Cb Nat Nat) "ns" ["main*"])
    ∧ ((Qyvent.create (Cb Nat Nat) "ns" ["main*"]).mkHookObj "ns"
          (retStopCb (none, false)) none).action = none :=
  ⟨by decide, rfl,
    (single_segment_parses Nat Nat [("ns", Qyvent.create (Cb Nat Nat) "ns" ["main*"])]
        "ns" "ns" (retStopCb (none, false)) none (Qyvent.create (Cb Nat Nat) "ns" ["main*"])
        (by decide) rfl).2.1⟩

/-! The `has` operation. -/

/-- Concrete namespace with a wildcard hook, used against C5. -/
def evC5 : Qyvent Unit := ((Qyvent.create Unit "ns" ["main*"]).hook "ns.*.call" () none).1

/-- C5 counterexample: with a wildcard hook registered from `"ns.*.call"`,
the pattern `"ns.x.call"` has a non-empty wildcard-aware filter result, yet
`has` returns `false` — `has` is not equivalent to non-emptiness of the
filter. -/
theorem has_ne_filter_nonempty :
    ¬ ((evC5.has "ns.x.call") = true ↔ evC5.filter "ns.x.call" ≠ []) := by
  decide

lemma jsFindIndex_pos_iff (p : α → Bool) (l : List α) :
    jsFindIndex p l > -1 ↔ ∃ x ∈ l, p x = true := by
  have hs : (l.findIdx? p).isSome = l.any p := List.findIdx?_isSome
  cases hf : l.findIdx? p with
  | none =>
    have hv : jsFindIndex p l = -1 := by
      unfold jsFindIndex
      rw [hf]
    rw [hf] at hs
    rw [hv]
    constructor
    · intro h
      exact absurd h (by omega)
    · intro hex
      rw [← List.any_eq_true] at hex
      rw [← hs] at hex
      exact absurd hex (by simp)
  | some i =>
    have hv : jsFindIndex p l = (i : Int) := by
      unfold jsFindIndex
      rw [hf]
    rw [hf] at hs
    rw [hv]
    constructor
    · intro _
      exact List.any_eq_true.mp (by simpa using hs.symm)
    · intro _
      omega

/-- C5 amended theorem: `has` returns true iff some stored hook agrees
literally — no wildcard interpretation — with the deduplicated fired
pattern (namespace id prepended, `Set` deduplication, first and last
segments taken as id and action) on id, on action, and on the dot-joined
name parts. -/
theorem has_iff_exact_match (K : Type) (ev : Qyvent K) (pattern : String) :
    ev.has pattern = true ↔
      ∃ h ∈ ev.hooks,
        (jsShift (jsSetDedup (ev.id :: jsSplitDot pattern))).1 = h.id
        ∧ (jsPop (jsShift (jsSetDedup (ev.id :: jsSplitDot pattern))).2).1 = h.action
        ∧ jsJoinDot (jsPop (jsShift (jsSetDedup (ev.id :: jsSplitDot pattern))).2).2
            = jsJoinDot h.name := by
  unfold Qyvent.has
  rw [decide_eq_true_eq, jsFindIndex_pos_iff]
  simp only [Bool.and_eq_true, beq_iff_eq, and_assoc]

/-- Concrete namespace with a hook registered from `"ns.a.call"`, used to
instantiate C10. -/
def evC10 : Qyvent Unit := ((Qyvent.create Unit "ns" ["main*"]).hook "ns.a.call" () none).1

/-- C10: `has` decides the pattern only through the deduplicated segment
list (namespace id prepended, first occurrences kept in order), so two
patterns with the same deduplication are indistinguishable to it; in
particular with a hook from `"ns.a.call"`, `has "ns.a.a.call"` is true even
though no stored hook has name parts `["a", "a"]`. -/
theorem has_dedups_segments :
    (∀ (K : Type) (ev : Qyvent K) (p q : String),
        jsSetDedup (ev.id :: jsSplitDot p) = jsSetDedup (ev.id :: jsSplitDot q) →
        ev.has p = ev.has q)
    ∧ evC10.has "ns.a.a.call" = true
    ∧ ∀ h ∈ evC10.hooks, h.name ≠ ["a", "a"] := by
  refine ⟨?_, by decide, by decide⟩
  intro K ev p q hd
  unfold Qyvent.has
  rw [hd]

theorem has_dedups_segments_witness :
    jsSetDedup (evC10.id :: jsSplitDot "ns.a.a.call")
        = jsSetDedup (evC10.id :: jsSplitDot "ns.a.call")
    ∧ evC10.has "ns.a.a.call" = evC10.has "ns.a.call" :=
  ⟨by decide, has_dedups_segments.1 Unit evC10 "ns.a.a.call" "ns.a.call" (by decide)⟩

end QyvrSpec
